import Mathlib

/-!
# Verification of the s3zip concurrent download-and-archive pipeline

A shallow embedding of `s3zip.go`: `Do` fans a list of `Resource`s out to
`concurrency` download workers fed from one generator channel (`gen`),
fans their outputs back in (`merge`), zips the downloaded files
(`archive` / `addToZip`) and uploads the zip.

Modelling conventions:
* The AWS storage client is an explicit environment `Env`: per-object
  download results, per-entry zip-write success, per-destination upload
  success.  The Go code treats the client as an opaque collaborator, so
  this is exactly its interface surface.
* The local file system is explicit state `FS`: an association list of
  existing file paths with their contents plus a counter used to generate
  the unique names that `os.CreateTemp` guarantees.  `os.CreateTemp`
  rejects patterns containing a path separator and otherwise returns a
  fresh unused name built from the pattern's prefix/suffix around the
  last `*`; the fresh random component is realised by the run counter
  (rendered as a run of `x` characters delimited by `/`, which the
  pattern pieces cannot contain, so names are provably collision-free
  exactly as the OS guarantees).
* Channel nondeterminism is an explicit parameter: `assign` says which
  worker receives each generated item (Go channels hand each sent value
  to exactly one receiver, in send order), `sched` says in which order
  the merge stage interleaves the worker outputs.
* Goroutines left blocked forever are observable in the result:
  `undelivered` are items the generator could never hand to a worker
  (its send blocks forever), `unconsumed` are items stuck in the merge
  forwarders after the archive stage stopped receiving.
-/

/-- `Object` from `s3zip.go`: an S3 bucket/key pair. -/
structure Object where
  Bucket : String
  Key : String
deriving DecidableEq

/-- `Resource` from `s3zip.go`: an object to pack plus its desired path in
the archive; `fpath` is filled in by a download worker once the bytes are
on disk. -/
structure Resource where
  Object : Object
  FileName : String
  fpath : String := ""
deriving DecidableEq

/-- `S3Zip` from `s3zip.go` (the uploader/downloader handles live in the
environment `Env`).  `concurrency` is a Go `int`, so it can be negative. -/
structure S3Zip where
  concurrency : Int
deriving DecidableEq

/-- The storage client and zip-writer behaviour for one run: what each
object download returns, whether creating/copying a given archive entry
succeeds, and whether the final upload to a destination succeeds. -/
structure Env where
  download : Object → Except String String
  zipCreateOk : String → Bool
  uploadOk : Object → Bool

/-- The bytes a successful download of `o` yields (unused on failures). -/
def dlBytes (env : Env) (o : Object) : String :=
  match env.download o with
  | .ok s => s
  | .error _ => ""

/-- Local file-system state: existing files (path, content) and the
counter backing `os.CreateTemp`'s fresh-name guarantee. -/
structure FS where
  files : List (String × String)
  nextId : Nat
deriving DecidableEq

/-- First file with the given path (models opening a path). -/
def lookupF : List (String × String) → String → Option String
  | [], _ => none
  | pr :: t, n => if pr.1 = n then some pr.2 else lookupF t n

/-- Overwrite the content stored at a path (models writing into an open
file). -/
def writeF (l : List (String × String)) (n : String) (v : String) :
    List (String × String) :=
  l.map fun pr => if pr.1 = n then (n, v) else pr

/-- `os.Remove`: the path ceases to exist (errors are ignored by the Go
code, which calls this only via `defer`). -/
def removeF (l : List (String × String)) (n : String) :
    List (String × String) :=
  l.filter fun pr => decide (pr.1 ≠ n)

/-- Run the deferred `os.Remove` calls accumulated by `archive`. -/
def removeAll (l : List (String × String)) : List String → List (String × String)
  | [] => l
  | n :: ns => removeAll (removeF l n) ns

/-- Does a character list contain the path separator? (`os.CreateTemp`
rejects such patterns.) -/
def sepIn : List Char → Bool
  | [] => false
  | c :: cs => if c = '/' then true else sepIn cs

/-- Split a pattern at its last `*`, as `os.CreateTemp` does: the random
component replaces that star; with no star the whole pattern is the
prefix.  Returns `none` when there is no star. -/
def splitLastStar : List Char → Option (List Char × List Char)
  | [] => none
  | c :: cs =>
    match splitLastStar cs with
    | some (p, s) => some (c :: p, s)
    | none => if c = '*' then some ([], cs) else none

/-- The prefix/suffix of a `CreateTemp` pattern around its last `*`. -/
def patParts (pattern : String) : List Char × List Char :=
  match splitLastStar pattern.data with
  | some (p, s) => (p, s)
  | none => (pattern.data, [])

/-- The unique name `os.CreateTemp` hands out for the `id`-th temp file of
a run whose pattern pieces are `rest`.  The unique token is a run of `x`
delimited by `/`; since `rest` never contains `/`, distinct ids give
distinct names. -/
def tempName (id : Nat) (rest : List Char) : String :=
  String.mk ("/tmp/".data ++ List.replicate id 'x' ++ '/' :: rest)

/-- `os.CreateTemp("", pattern)`: fails on a pattern containing a path
separator, otherwise creates a fresh empty file and returns its name. -/
def createTemp (fs : FS) (pattern : String) : Except String (FS × String) :=
  if sepIn pattern.data then
    .error "pattern contains path separator"
  else
    let ps := patParts pattern
    let name := tempName fs.nextId (ps.1 ++ ps.2)
    .ok ({ files := (name, "") :: fs.files, nextId := fs.nextId + 1 }, name)

/-- `downloadOnDisk` from `s3zip.go`: create a temp file from the pattern
`"*." + FileName`, stream the object into it, and on success return the
resource with `fpath` set.  On download failure the already-created temp
file is left behind (the Go code never removes it). -/
def downloadOnDisk (env : Env) (fs : FS) (res : Resource) :
    FS × Except String Resource :=
  match createTemp fs ("*." ++ res.FileName) with
  | .error e => (fs, .error e)
  | .ok (fs1, name) =>
    match env.download res.Object with
    | .error e => (fs1, .error ("failed to download: " ++ e))
    | .ok content =>
      ({ fs1 with files := writeF fs1.files name content },
       .ok { res with fpath := name })

/-- `runDownloadWorker` from `s3zip.go`: pull resources until the queue is
exhausted or a download fails; on failure the goroutine just returns (the
error is discarded), leaving the rest of its queue share untaken.
Returns (file system, emitted staged resources, untaken remainder). -/
def runWorker (env : Env) (fs : FS) :
    List Resource → FS × List Resource × List Resource
  | [] => (fs, [], [])
  | res :: rest =>
    match downloadOnDisk env fs res with
    | (fs1, .error _) => (fs1, [], rest)
    | (fs1, .ok staged) =>
      match runWorker env fs1 rest with
      | (fs2, out, left) => (fs2, staged :: out, left)

/-- Run each worker, threading the file system; collects the per-worker
output streams and all untaken queue items. -/
def runWorkers (env : Env) (fs : FS) :
    List (List Resource) → FS × List (List Resource) × List Resource
  | [] => (fs, [], [])
  | items :: rest =>
    match runWorker env fs items with
    | (fs1, out, left) =>
      match runWorkers env fs1 rest with
      | (fs2, outs, lefts) => (fs2, out :: outs, left ++ lefts)

/-- `gen` from `s3zip.go`: the sequence of values sent, in order, on the
single producer channel before it is closed. -/
def gen (resources : List Resource) : List Resource :=
  resources

/-- Unbuffered-channel delivery: each sent value is received by exactly
one consumer, in send order; `assign` records which consumer got each
item.  `deliverTo rs assign w` is the stream consumer `w` receives. -/
def deliverTo (rs : List Resource) (assign : Nat → Nat) (w : Nat) :
    List Resource :=
  ((gen rs).enum.filter fun p => decide (assign p.1 = w)).map Prod.snd

/-- The queue share of each of the `c` download workers. -/
def workerLists (rs : List Resource) (assign : Nat → Nat) (c : Nat) :
    List (List Resource) :=
  (List.range c).map fun w => deliverTo rs assign w

/-- Items the generator can never hand to any of the `c` workers: its
send on the queue channel blocks forever on these. -/
def undeliveredItems (rs : List Resource) (assign : Nat → Nat) (c : Nat) :
    List Resource :=
  (rs.enum.filter fun p => decide (c ≤ assign p.1)).map Prod.snd

/-- `merge` from `s3zip.go`: one forwarding goroutine per worker channel
sends into the shared output channel, which closes once all forwarders
finish.  `sched` picks, step by step, which (non-empty) input the output
takes its next item from; invalid or exhausted picks are skipped.
Returns the interleaved output and what is still stuck in each input. -/
def mergeRun : List (List Resource) → List Nat → List Resource × List (List Resource)
  | ins, [] => ([], ins)
  | ins, i :: sched =>
    match ins[i]? with
    | some (x :: rest) =>
      let r := mergeRun (ins.set i rest) sched
      (x :: r.1, r.2)
    | some [] => mergeRun ins sched
    | none => mergeRun ins sched

/-- `addToZip` from `s3zip.go`: create the entry named `FileName` in the
zip writer, open the downloaded file, copy its bytes in.  Entry creation
and the copy can fail (environment), opening fails if the path is gone. -/
def addToZip (env : Env) (fs : FS) (res : Resource) :
    Except String (String × String) :=
  if env.zipCreateOk res.FileName then
    match lookupF fs.files res.fpath with
    | none => .error "failed to open a downloaded file"
    | some content => .ok (res.FileName, content)
  else
    .error "failed to add a file to the zip file"

/-- The consuming loop of `archive`: skip items with an empty `fpath`
silently, otherwise register a deferred `os.Remove(fpath)` and add to the
zip; on error stop consuming.  Returns (entries written or the error, the
deferred removals registered, the queue suffix never consumed). -/
def archiveLoop (env : Env) (fs : FS) :
    List Resource →
      Except String (List (String × String)) × List String × List Resource
  | [] => (.ok [], [], [])
  | res :: rest =>
    if res.fpath = "" then
      archiveLoop env fs rest
    else
      match addToZip env fs res with
      | .error e => (.error e, [res.fpath], rest)
      | .ok entry =>
        match archiveLoop env fs rest with
        | (r, defers, uncons) =>
          (match r with
           | .ok es => .ok (entry :: es)
           | .error e => .error e,
           res.fpath :: defers, uncons)

/-- `archive` from `s3zip.go`: create the zip temp file, consume the
queue, run the deferred removals on exit.  On an entry error the function
returns early: the zip temp file is not removed (its path is never
returned, and `Do` only removes the returned path on success), and the
unconsumed queue suffix stays stuck upstream.
Returns (file system, zip path or error, entries, unconsumed suffix). -/
def archiveGo (env : Env) (fs : FS) (queue : List Resource) :
    FS × Except String String × List (String × String) × List Resource :=
  match createTemp fs "*.s3.zip" with
  | .error e => (fs, .error ("failed to create a temp zip file: " ++ e), [], queue)
  | .ok (fs1, zpath) =>
    match archiveLoop env fs1 queue with
    | (r, defers, uncons) =>
      let fs2 : FS := { fs1 with files := removeAll fs1.files defers }
      match r with
      | .error e => (fs2, .error e, [], uncons)
      | .ok entries => (fs2, .ok zpath, entries, uncons)

/-- `configOption` from `s3zip.go` (functional in the model: the Go
version mutates the struct through a pointer). -/
def configOption : Type :=
  S3Zip → S3Zip

/-- `New` from `s3zip.go`: default concurrency 1, then apply the options
in order.  The AWS session argument configures the external client and is
not part of the pipeline state. -/
def New (opts : List configOption) : S3Zip :=
  opts.foldl (fun z opt => opt z) { concurrency := 1 }

/-- `WithConcurrency` from `s3zip.go`: sets the field, no validation. -/
def WithConcurrency (c : Int) : configOption :=
  fun z => { z with concurrency := c }

/-- How a run of `Do` terminates: normally (`ok`/`error`), or a Go
runtime panic (`fatal`). -/
inductive DoResult where
  | ok : DoResult
  | error : String → DoResult
  | fatal : String → DoResult
deriving DecidableEq

/-- Everything observable about one run of `Do` once it has returned. -/
structure RunOutcome where
  result : DoResult
  /-- Transient files still existing after `Do` returned. -/
  files : List (String × String)
  /-- Uploads performed: destination and the entries of the uploaded zip. -/
  uploaded : List (Object × List (String × String))
  /-- Items stuck forever in the generator's send. -/
  undelivered : List Resource
  /-- Items stuck forever in the merge forwarders' sends. -/
  unconsumed : List Resource
deriving DecidableEq

/-- The worker phase of `Do`: spawn `concurrency` workers on the shared
queue (an empty worker set when the count is zero). -/
def doWorkers (env : Env) (z : S3Zip) (rs : List Resource)
    (assign : Nat → Nat) : FS × List (List Resource) × List Resource :=
  runWorkers env { files := [], nextId := 0 }
    (workerLists rs assign z.concurrency.toNat)

/-- The merged stream the archive stage consumes in a run of `Do`. -/
def mergedQueue (env : Env) (z : S3Zip) (rs : List Resource)
    (assign : Nat → Nat) (sched : List Nat) : List Resource :=
  (mergeRun (doWorkers env z rs assign).2.1 sched).1

/-- `Do` from `s3zip.go`: start the generator and the workers, merge,
archive, upload, with `defer os.Remove(zipFpath)` registered only after a
successful `archive`.  `make([]chan, concurrency)` panics for a negative
count before any worker starts (the generator goroutine has already been
spawned and stays blocked on a non-empty input). -/
def S3Zip.Do (z : S3Zip) (env : Env) (destObj : Object)
    (resources : List Resource) (assign : Nat → Nat) (sched : List Nat) :
    RunOutcome :=
  if z.concurrency < 0 then
    { result := .fatal "makeslice: len out of range"
      files := []
      uploaded := []
      undelivered := resources
      unconsumed := [] }
  else
    let w := doWorkers env z resources assign
    let und := w.2.2 ++ undeliveredItems resources assign z.concurrency.toNat
    let m := mergeRun w.2.1 sched
    let a := archiveGo env w.1 m.1
    let stuck := a.2.2.2 ++ m.2.flatten
    match a.2.1 with
    | .error e =>
      { result := .error ("failed to zip: " ++ e)
        files := a.1.files
        uploaded := []
        undelivered := und
        unconsumed := stuck }
    | .ok zpath =>
      if env.uploadOk destObj then
        { result := .ok
          files := removeF a.1.files zpath
          uploaded := [(destObj, a.2.2.1)]
          undelivered := und
          unconsumed := stuck }
      else
        { result := .error "failed to upload zip"
          files := removeF a.1.files zpath
          uploaded := []
          undelivered := und
          unconsumed := stuck }

/-- Destinations of the uploads a run performed. -/
def uploadedDests (o : RunOutcome) : List Object :=
  o.uploaded.map Prod.fst

/-- All entries (name, content) of the zips a run uploaded. -/
def uploadedEntries (o : RunOutcome) : List (String × String) :=
  (o.uploaded.map Prod.snd).flatten

/-- The archive entry a resource should produce: its archive path paired
with its source object's bytes. -/
def entryOf (env : Env) (r : Resource) : String × String :=
  (r.FileName, dlBytes env r.Object)

/-- The staging-invariant part of a resource: archive path and source. -/
def entryKey (r : Resource) : String × Object :=
  (r.FileName, r.Object)

/-- Did the storage-client call succeed? -/
def isOkE (e : Except String String) : Bool :=
  match e with
  | .ok _ => true
  | .error _ => false

/-- The download stage can fully succeed for `r`: its temp-file pattern
contains no path separator and the storage client returns its bytes. -/
def DownloadOk (env : Env) (r : Resource) : Prop :=
  sepIn ("*." ++ r.FileName).data = false ∧ isOkE (env.download r.Object) = true

instance (env : Env) (r : Resource) : Decidable (DownloadOk env r) :=
  inferInstanceAs (Decidable (_ ∧ _))

/-- The staged form of a resource whose temp file received id `n`. -/
def stageRes (n : Nat) (res : Resource) : Resource :=
  { res with
    fpath := tempName n ((patParts ("*." ++ res.FileName)).1 ++
      (patParts ("*." ++ res.FileName)).2) }

/-- The stream a worker emits for a queue share it fully downloads,
with temp-file ids handed out consecutively from `n`. -/
def stagedSeq (n : Nat) : List Resource → List Resource
  | [] => []
  | r :: rest => stageRes n r :: stagedSeq (n + 1) rest

/-- File-system well-formedness: every existing file was created by
`createTemp` with an id below the counter — so the next name handed out
is always fresh, exactly the `os.CreateTemp` guarantee. -/
def WF (fs : FS) : Prop :=
  ∀ pr ∈ fs.files, ∃ i rest, i < fs.nextId ∧ pr.1 = tempName i rest

/-! ## Concrete runs used as counterexamples and failing inputs -/

/-- A source object whose download the failing environment rejects. -/
def oA : Object := { Bucket := "b1", Key := "a" }

/-- A second source object, downloadable in every environment below. -/
def oB : Object := { Bucket := "b1", Key := "b" }

/-- The destination of the uploaded archive in the concrete runs. -/
def dst : Object := { Bucket := "b2", Key := "out.zip" }

/-- Resource for `oA` with archive path `a.txt`. -/
def rA : Resource := { Object := oA, FileName := "a.txt" }

/-- Resource for `oB` with archive path `b.txt`. -/
def rB : Resource := { Object := oB, FileName := "b.txt" }

/-- Resource whose archive path contains a slash, as in the package's
README usage example. -/
def rSlash : Resource := { Object := oA, FileName := "bar/baz.txt" }

/-- A `StagedResource` that carries no transient location. -/
def rGhost : Resource := { Object := oA, FileName := "ghost.txt" }

/-- Environment in which downloading `oA` fails and every other stage
(downloads of other objects, zip writing, upload) succeeds. -/
def envFail : Env :=
  { download := fun o => if o.Key = "a" then .error "NoSuchKey" else .ok "BB"
    zipCreateOk := fun _ => true
    uploadOk := fun _ => true }

/-- Environment in which every stage succeeds; each object downloads to
the bytes `data-<key>`. -/
def envOk : Env :=
  { download := fun o => .ok ("data-" ++ o.Key)
    zipCreateOk := fun _ => true
    uploadOk := fun _ => true }

/-! ## Theorems for the claims -/

/-- **C1** (code bug evaluation).  The claim says: if a source object's
download fails while all other stages can succeed, `Do` returns an error
tagged with the failing source's `ObjectRef` and uploads no archive.  The
code instead discards the wrapped download error inside
`runDownloadWorker` (`if err != nil { return }`): on the run with a
single resource whose download fails (concurrency 1), `Do` returns `nil`
and uploads an (empty) archive to the destination. -/
theorem claim_C1_download_failure_swallowed :
    (S3Zip.Do ⟨1⟩ envFail dst [rA] (fun _ => 0) []).result = DoResult.ok ∧
    (S3Zip.Do ⟨1⟩ envFail dst [rA] (fun _ => 0) []).uploaded =
      [(dst, [])] := by
  decide

/-- **C2** (code bug evaluation).  The claim says every transient local
file created during a run is deleted by the time `Do` returns, on every
path.  On the run with a single resource whose download fails,
`downloadOnDisk` has already created the temp file via `os.CreateTemp`
but nobody ever removes it: it still exists after `Do` returns. -/
theorem claim_C2_transient_file_leaked :
    (S3Zip.Do ⟨1⟩ envFail dst [rA] (fun _ => 0) []).files =
      [(tempName 0 ".a.txt".data, "")] ∧
    (S3Zip.Do ⟨1⟩ envFail dst [rA] (fun _ => 0) []).files ≠ [] := by
  decide

/-- **C3** (code bug evaluation).  The claim says no spawned goroutine
remains blocked after `Do` returns.  With concurrency 1 and two
resources, the first download fails, the only worker exits, and the
`gen` goroutine stays blocked forever trying to send the second resource
on the queue channel — yet `Do` has already returned `nil`. -/
theorem claim_C3_generator_left_blocked :
    (S3Zip.Do ⟨1⟩ envFail dst [rA, rB] (fun _ => 0) []).result =
      DoResult.ok ∧
    (S3Zip.Do ⟨1⟩ envFail dst [rA, rB] (fun _ => 0) []).undelivered =
      [rB] := by
  decide

/-- **C5** (counterexample).  The claim says the archive stage never
silently skips a `StagedResource` without a usable transient location:
such an item is only ever processed while the run is already aborting.
But `archive` in `s3zip.go` hits `if res.fpath == "" { continue }`: fed a
queue holding exactly one such item, it completes successfully with zero
entries, flags nothing, and leaves nothing unconsumed — a successful
silent no-op. -/
theorem claim_C5_counterexample :
    (archiveGo envOk ⟨[], 0⟩ [rGhost]).2.1 =
      .ok (tempName 0 ".s3.zip".data) ∧
    (archiveGo envOk ⟨[], 0⟩ [rGhost]).2.2.1 = [] ∧
    (archiveGo envOk ⟨[], 0⟩ [rGhost]).2.2.2 = [] :=
  ⟨rfl, rfl, rfl⟩

/-- **C9** (code bug evaluation).  The claim (and the package README's
usage example) has archive path `bar/baz.txt` staged and becoming the
entry name.  But `downloadOnDisk` calls `os.CreateTemp("", "*."+FileName)`
and `CreateTemp` rejects any pattern containing a path separator, so the
resource is never staged; the worker swallows the error and `Do` uploads
an archive with no entry at all for it. -/
theorem claim_C9_slash_path_dropped :
    (S3Zip.Do ⟨1⟩ envOk dst [rSlash] (fun _ => 0) [0]).result =
      DoResult.ok ∧
    (S3Zip.Do ⟨1⟩ envOk dst [rSlash] (fun _ => 0) [0]).uploaded =
      [(dst, [])] := by
  decide

/-- **C10** (counterexample).  The claim says that for every concurrency
value ≤ 0 `Do` uploads an empty archive and returns `nil`.  For a
negative value the Go code panics at `make([]<-chan Resource, -1)`
instead: it neither returns `nil` nor uploads anything. -/
theorem claim_C10_counterexample :
    (S3Zip.Do ⟨-1⟩ envOk dst [rA] (fun _ => 0) []).result =
      DoResult.fatal "makeslice: len out of range" ∧
    (S3Zip.Do ⟨-1⟩ envOk dst [rA] (fun _ => 0) []).result ≠ DoResult.ok ∧
    (S3Zip.Do ⟨-1⟩ envOk dst [rA] (fun _ => 0) []).uploaded = [] := by
  decide

/-! ## Task-source delivery: partitioning the generated stream -/

open scoped List

theorem flatMap_congr_mem {α : Type} (f g : Nat → List α) :
    ∀ ws : List Nat, (∀ w ∈ ws, g w = f w) → ws.flatMap g = ws.flatMap f := by
  intro ws
  induction ws with
  | nil => intro _; rfl
  | cons w t ih =>
    intro h
    simp only [List.flatMap_cons]
    rw [h w (by simp), ih fun v hv => h v (by simp [hv])]

/-- If exactly the bucket `w0` of a partition gains one item `x` at its
front, the concatenation over distinct bucket indices gains exactly `x`. -/
theorem flatMap_bucket_cons {α : Type} (x : α) (f g : Nat → List α) (w0 : Nat) :
    ∀ ws : List Nat, ws.Nodup → w0 ∈ ws → (∀ w, w ≠ w0 → g w = f w) →
      g w0 = x :: f w0 → ws.flatMap g ~ x :: ws.flatMap f := by
  intro ws
  induction ws with
  | nil => intro _ hmem _ _; exact absurd hmem (List.not_mem_nil w0)
  | cons w t ih =>
    intro hnd hmem hg hg0
    have hnd1 : w ∉ t := (List.nodup_cons.mp hnd).1
    have hnd2 : t.Nodup := (List.nodup_cons.mp hnd).2
    simp only [List.flatMap_cons]
    rcases List.mem_cons.mp hmem with he | hmem1
    · subst he
      have ht : t.flatMap g = t.flatMap f :=
        flatMap_congr_mem f g t fun v hv => hg v (by rintro rfl; exact hnd1 hv)
      rw [hg0, ht]
      exact List.Perm.refl _
    · have hw : w ≠ w0 := by rintro rfl; exact hnd1 hmem1
      rw [hg w hw]
      calc f w ++ t.flatMap g
          ~ f w ++ (x :: t.flatMap f) :=
            List.Perm.append_left _ (ih hnd2 hmem1 hg hg0)
        _ ~ x :: (f w ++ t.flatMap f) := List.perm_middle

/-- Distributing an indexed stream over `c` buckets by any assignment that
stays below `c` loses and duplicates nothing. -/
theorem partition_flatMap_perm {α : Type} (a : Nat → Nat) :
    ∀ (l : List (Nat × α)) (c : Nat), (∀ p ∈ l, a p.1 < c) →
      ((List.range c).flatMap fun w => l.filter fun p => decide (a p.1 = w)) ~ l := by
  intro l
  induction l with
  | nil => intro c _; simp
  | cons p t ih =>
    intro c h
    have hp : a p.1 < c := h p (by simp)
    have step :
        (List.range c).flatMap
            (fun w => (p :: t).filter fun q => decide (a q.1 = w)) ~
          p :: (List.range c).flatMap fun w => t.filter fun q => decide (a q.1 = w) := by
      apply flatMap_bucket_cons p
        (fun w => t.filter fun q => decide (a q.1 = w))
        (fun w => (p :: t).filter fun q => decide (a q.1 = w)) (a p.1)
        (List.range c) (List.nodup_range c) (List.mem_range.mpr hp)
      · intro w hw
        simp only [List.filter_cons]
        rw [if_neg]
        simp only [decide_eq_true_eq]
        omega
      · simp only [List.filter_cons]
        rw [if_pos]
        simp
    exact step.trans (List.Perm.cons p (ih c fun q hq => h q (by simp [hq])))

/-- **C6** (confirmed).  The Task Source `gen` sends each descriptor
exactly once, in input order, then closes the channel.  For any number of
concurrent consumers — any assignment of each sent item to a consumer
below `c` — the consumers' received streams partition the sent stream:
their indexed union is a permutation of the whole indexed stream (each
descriptor delivered exactly once, none skipped or duplicated), and each
consumer receives its share in input order (a sublist of `gen rs`). -/
theorem claim_C6_task_source (rs : List Resource) (assign : Nat → Nat)
    (c w : Nat) (h : ∀ i, i < rs.length → assign i < c) :
    ((List.range c).flatMap fun v =>
        (gen rs).enum.filter fun p => decide (assign p.1 = v)) ~ (gen rs).enum ∧
    deliverTo rs assign w <+ gen rs := by
  constructor
  · apply partition_flatMap_perm
    intro p hp
    obtain ⟨hlen, -⟩ := List.getElem?_eq_some.mp (List.mem_enum_iff_getElem?.mp hp)
    exact h p.1 hlen
  · have h1 : ((gen rs).enum.filter fun p => decide (assign p.1 = w)) <+
        (gen rs).enum := List.filter_sublist _
    have h2 := h1.map Prod.snd
    rw [List.enum_map_snd] at h2
    exact h2

/-- Witness for C6: two resources delivered to two consumers by the
identity assignment. -/
theorem claim_C6_witness :
    (∀ i, i < ([rA, rB] : List Resource).length → (fun i : Nat => i) i < 2) ∧
    (((List.range 2).flatMap fun v =>
        (gen [rA, rB]).enum.filter fun p =>
          decide ((fun i : Nat => i) p.1 = v)) ~ (gen [rA, rB]).enum ∧
      deliverTo [rA, rB] (fun i : Nat => i) 1 <+ gen [rA, rB]) :=
  ⟨by decide, claim_C6_task_source [rA, rB] (fun i : Nat => i) 2 1 (by decide)⟩

/-! ## Fan-in merge: no item dropped or duplicated -/

/-- Taking the head of the `i`-th stream moves exactly one item out of
the flattened whole. -/
theorem flatten_set_cons {α : Type} (x : α) :
    ∀ (ins : List (List α)) (i : Nat) (rest : List α),
      ins[i]? = some (x :: rest) →
        ins.flatten.Perm (x :: (ins.set i rest).flatten)
  | [], i, rest, h => by simp at h
  | l :: t, 0, rest, h => by
    simp only [List.getElem?_cons_zero, Option.some.injEq] at h
    subst h
    simp [List.flatten]
  | l :: t, i + 1, rest, h => by
    simp only [List.getElem?_cons_succ] at h
    have ih := flatten_set_cons x t i rest h
    simp only [List.set_cons_succ, List.flatten_cons]
    calc l ++ t.flatten
        ~ l ++ (x :: (t.set i rest).flatten) := List.Perm.append_left l ih
      _ ~ x :: (l ++ (t.set i rest).flatten) := List.perm_middle

/-- Invariant of the fan-in merge: at every point, the items already
forwarded plus the items still held by the workers are exactly the items
the workers produced. -/
theorem mergeRun_invariant (sched : List Nat) :
    ∀ ins : List (List Resource),
      ((mergeRun ins sched).1 ++ ((mergeRun ins sched).2).flatten) ~
        ins.flatten := by
  induction sched with
  | nil => intro ins; simp [mergeRun]
  | cons i s ih =>
    intro ins
    show ((mergeRun ins (i :: s)).1 ++ ((mergeRun ins (i :: s)).2).flatten) ~ _
    unfold mergeRun
    cases h : ins[i]? with
    | none => simpa using ih ins
    | some l =>
      cases l with
      | nil => simpa using ih ins
      | cons x rest =>
        simp only
        have key := flatten_set_cons x ins i rest h
        have step := ih (ins.set i rest)
        calc x :: ((mergeRun (ins.set i rest) s).1 ++
              ((mergeRun (ins.set i rest) s).2).flatten)
            ~ x :: (ins.set i rest).flatten := List.Perm.cons x step
          _ ~ ins.flatten := key.symm

/-- A family of streams that have all signalled exhaustion holds no
items. -/
theorem flatten_of_all_isEmpty {α : Type} :
    ∀ rem : List (List α), rem.all List.isEmpty = true → rem.flatten = [] := by
  intro rem
  induction rem with
  | nil => intro _; rfl
  | cons l t ih =>
    intro h
    rw [List.all_cons, Bool.and_eq_true] at h
    have hl : l = [] := List.isEmpty_iff.mp h.1
    simp [hl, ih h.2]

/-- **C7** (confirmed).  The Fan-in Merger never drops or duplicates an
item: at every point of any interleaving, the forwarded output plus the
items still held upstream are a permutation of everything the workers
emitted; and the combined stream is exhausted (equals the full multiset
union) precisely when every worker stream has signalled exhaustion —
the output channel closes only after all forwarders finish. -/
theorem claim_C7_merge (ins : List (List Resource)) (sched : List Nat) :
    ((mergeRun ins sched).1 ++ ((mergeRun ins sched).2).flatten) ~
      ins.flatten ∧
    (((mergeRun ins sched).2).all List.isEmpty = true →
      (mergeRun ins sched).1 ~ ins.flatten) := by
  refine ⟨mergeRun_invariant sched ins, fun h => ?_⟩
  have inv := mergeRun_invariant sched ins
  rw [flatten_of_all_isEmpty _ h, List.append_nil] at inv
  exact inv

/-- Witness for C7: two one-item worker streams interleaved second-first;
the drained merge output is a permutation of both streams' items. -/
theorem claim_C7_witness :
    ((mergeRun [[rA], [rB]] [1, 0]).2.all List.isEmpty = true) ∧
    (mergeRun [[rA], [rB]] [1, 0]).1 ~ ([[rA], [rB]] : List (List Resource)).flatten :=
  ⟨by decide, (claim_C7_merge [[rA], [rB]] [1, 0]).2 (by decide)⟩

/-! ## Freshness of `os.CreateTemp` names -/

theorem replicate_slash_inj :
    ∀ (a b : Nat) (ra rb : List Char),
      List.replicate a 'x' ++ '/' :: ra = List.replicate b 'x' ++ '/' :: rb →
      a = b ∧ ra = rb := by
  intro a
  induction a with
  | zero =>
    intro b ra rb h
    cases b with
    | zero => simpa using h
    | succ b => simp [List.replicate_succ] at h
  | succ a ih =>
    intro b ra rb h
    cases b with
    | zero => simp [List.replicate_succ] at h
    | succ b =>
      simp only [List.replicate_succ, List.cons_append, List.cons.injEq] at h
      have h2 := ih b ra rb h.2
      exact ⟨by omega, h2.2⟩

/-- Distinct temp-file ids give distinct names (and the pattern pieces
are recoverable): the model keeps `os.CreateTemp`'s no-collision
guarantee. -/
theorem tempName_inj {a b : Nat} {ra rb : List Char}
    (h : tempName a ra = tempName b rb) : a = b ∧ ra = rb := by
  have hd := congrArg String.data h
  simp only [tempName] at hd
  rw [List.append_assoc, List.append_assoc] at hd
  exact replicate_slash_inj a b ra rb (List.append_cancel_left hd)

/-- A temp-file name is never the empty string. -/
theorem tempName_ne_empty (i : Nat) (rest : List Char) : tempName i rest ≠ "" := by
  intro h
  have hd := congrArg String.data h
  simp [tempName] at hd

/-! ## File-system lemmas -/

theorem lookupF_cons_self (v : String) (l : List (String × String)) (n : String) :
    lookupF ((n, v) :: l) n = some v := by
  simp [lookupF]

theorem lookupF_cons_ne (v : String) (l : List (String × String)) (n p : String)
    (h : p ≠ n) : lookupF ((n, v) :: l) p = lookupF l p := by
  show (if n = p then some v else lookupF l p) = lookupF l p
  rw [if_neg fun hc => h hc.symm]

/-- A successful lookup names one of the existing files. -/
theorem lookupF_mem :
    ∀ (l : List (String × String)) (p v : String),
      lookupF l p = some v → (p, v) ∈ l := by
  intro l
  induction l with
  | nil => intro p v h; simp [lookupF] at h
  | cons pr t ih =>
    intro p v h
    by_cases hc : pr.1 = p
    · rw [lookupF, if_pos hc] at h
      cases pr with
      | mk p1 p2 =>
        simp only [Option.some.injEq] at h
        simp only at hc
        subst hc
        subst h
        exact List.mem_cons_self _ _
    · rw [lookupF, if_neg hc] at h
      exact List.mem_cons_of_mem pr (ih p v h)

/-- In a well-formed file system every existing path is a `tempName` with
id below the counter, hence differs from every name yet to be issued. -/
theorem WF.key_ne_future {fs : FS} (hwf : WF fs) {pr : String × String}
    (hmem : pr ∈ fs.files) (i : Nat) (hge : fs.nextId ≤ i) (rest : List Char) :
    pr.1 ≠ tempName i rest := by
  obtain ⟨j, r0, hj, hpr⟩ := hwf pr hmem
  rw [hpr]
  intro hc
  have := (tempName_inj hc).1
  omega

/-- Writing to a name no existing file has leaves the list unchanged. -/
theorem writeF_absent (l : List (String × String)) (n : String) (v : String)
    (h : ∀ pr ∈ l, pr.1 ≠ n) : writeF l n v = l := by
  induction l with
  | nil => rfl
  | cons pr t ih =>
    have h1 : pr.1 ≠ n := h pr (by simp)
    simp only [writeF, List.map_cons, if_neg h1]
    have h2 := ih fun q hq => h q (by simp [hq])
    simp only [writeF] at h2
    rw [h2]

theorem writeF_cons_self (l : List (String × String)) (n : String)
    (v0 v : String) : writeF ((n, v0) :: l) n v = (n, v) :: writeF l n v := by
  simp [writeF]

/-! ## The download stage on fully-successful inputs -/

theorem stageRes_fpath (n : Nat) (res : Resource) :
    (stageRes n res).fpath =
      tempName n ((patParts ("*." ++ res.FileName)).1 ++
        (patParts ("*." ++ res.FileName)).2) :=
  rfl

theorem createTemp_ok (fs : FS) (pattern : String)
    (h : sepIn pattern.data = false) :
    createTemp fs pattern =
      .ok ({ files :=
               (tempName fs.nextId ((patParts pattern).1 ++ (patParts pattern).2),
                 "") :: fs.files,
             nextId := fs.nextId + 1 },
           tempName fs.nextId ((patParts pattern).1 ++ (patParts pattern).2)) := by
  simp [createTemp, h]

theorem download_eq_ok {env : Env} {o : Object}
    (h : isOkE (env.download o) = true) :
    env.download o = .ok (dlBytes env o) := by
  cases hd : env.download o with
  | ok s => simp [dlBytes, hd]
  | error e => rw [hd] at h; simp [isOkE] at h

theorem downloadOnDisk_ok (env : Env) (fs : FS) (res : Resource)
    (h : DownloadOk env res) (hwf : WF fs) :
    downloadOnDisk env fs res =
      ({ files := ((stageRes fs.nextId res).fpath, dlBytes env res.Object) ::
           fs.files,
         nextId := fs.nextId + 1 },
       .ok (stageRes fs.nextId res)) := by
  obtain ⟨hsep, hok⟩ := h
  have hfresh : ∀ pr ∈ fs.files,
      pr.1 ≠ tempName fs.nextId ((patParts ("*." ++ res.FileName)).1 ++
        (patParts ("*." ++ res.FileName)).2) :=
    fun pr hm => hwf.key_ne_future hm fs.nextId le_rfl _
  unfold downloadOnDisk
  rw [createTemp_ok fs _ hsep, download_eq_ok hok]
  simp only [stageRes_fpath]
  rw [writeF_cons_self, writeF_absent _ _ _ hfresh]
  simp [stageRes]

/-- A worker whose whole queue share downloads successfully: it takes
everything, emits the staged stream with consecutive temp-file ids,
keeps the file system well formed, preserves existing files, and leaves
every staged item's bytes on disk. -/
theorem runWorker_ok (env : Env) :
    ∀ (items : List Resource) (fs : FS),
      (∀ r ∈ items, DownloadOk env r) → WF fs →
      (runWorker env fs items).1.nextId = fs.nextId + items.length ∧
      (runWorker env fs items).2.1 = stagedSeq fs.nextId items ∧
      (runWorker env fs items).2.2 = [] ∧
      WF (runWorker env fs items).1 ∧
      (∀ p v, lookupF fs.files p = some v →
        lookupF (runWorker env fs items).1.files p = some v) ∧
      (∀ s ∈ stagedSeq fs.nextId items,
        lookupF (runWorker env fs items).1.files s.fpath =
          some (dlBytes env s.Object)) := by
  intro items
  induction items with
  | nil =>
    intro fs hok hwf
    refine ⟨by simp [runWorker], rfl, rfl, hwf, fun p v h => h, ?_⟩
    intro s hs
    simp [stagedSeq] at hs
  | cons r rest ih =>
    intro fs hok hwf
    have hr : DownloadOk env r := hok r (by simp)
    have hdl := downloadOnDisk_ok env fs r hr hwf
    have hwf1 : WF (FS.mk
        (((stageRes fs.nextId r).fpath, dlBytes env r.Object) :: fs.files)
        (fs.nextId + 1)) := by
      intro pr hpr
      rcases List.mem_cons.mp hpr with he | hm
      · subst he
        exact ⟨fs.nextId, _, Nat.lt_succ_self _, stageRes_fpath fs.nextId r⟩
      · obtain ⟨j, r0, hj, he⟩ := hwf pr hm
        exact ⟨j, r0, Nat.lt_succ_of_lt hj, he⟩
    have ihh := ih (FS.mk
        (((stageRes fs.nextId r).fpath, dlBytes env r.Object) :: fs.files)
        (fs.nextId + 1)) (fun q hq => hok q (by simp [hq])) hwf1
    have hrw : runWorker env fs (r :: rest) =
        ((runWorker env (FS.mk
            (((stageRes fs.nextId r).fpath, dlBytes env r.Object) :: fs.files)
            (fs.nextId + 1)) rest).1,
         stageRes fs.nextId r :: (runWorker env (FS.mk
            (((stageRes fs.nextId r).fpath, dlBytes env r.Object) :: fs.files)
            (fs.nextId + 1)) rest).2.1,
         (runWorker env (FS.mk
            (((stageRes fs.nextId r).fpath, dlBytes env r.Object) :: fs.files)
            (fs.nextId + 1)) rest).2.2) := by
      rw [runWorker, hdl]
    rw [hrw]
    obtain ⟨ih1, ih2, ih3, ih4, ih5, ih6⟩ := ihh
    refine ⟨by simp only [ih1]; simp; omega, ?_, ih3, ih4, ?_, ?_⟩
    · show stageRes fs.nextId r :: _ = stagedSeq fs.nextId (r :: rest)
      rw [stagedSeq, ih2]
    · intro p v hp
      apply ih5
      have hkey : p ≠ (stageRes fs.nextId r).fpath := by
        rw [stageRes_fpath]
        exact hwf.key_ne_future (lookupF_mem fs.files p v hp) fs.nextId le_rfl _
      rw [lookupF_cons_ne _ _ _ _ hkey]
      exact hp
    · intro s hs
      rw [stagedSeq] at hs
      rcases List.mem_cons.mp hs with he | hm
      · subst he
        apply ih5
        exact lookupF_cons_self _ _ _
      · exact ih6 s hm

/-- Staging changes only `fpath`: archive path and source are kept. -/
theorem stagedSeq_map_entryKey :
    ∀ (items : List Resource) (n : Nat),
      (stagedSeq n items).map entryKey = items.map entryKey := by
  intro items
  induction items with
  | nil => intro n; rfl
  | cons r rest ih =>
    intro n
    simp only [stagedSeq, List.map_cons, ih]
    rfl

/-- The whole worker pool on fully-successful queue shares: no share is
left untaken, the file system stays well formed, files survive, every
emitted item's bytes are on disk, and the emitted items are the queue
items up to staging. -/
theorem runWorkers_ok (env : Env) :
    ∀ (lists : List (List Resource)) (fs : FS),
      (∀ items ∈ lists, ∀ r ∈ items, DownloadOk env r) → WF fs →
      (runWorkers env fs lists).2.2 = [] ∧
      WF (runWorkers env fs lists).1 ∧
      (∀ p v, lookupF fs.files p = some v →
        lookupF (runWorkers env fs lists).1.files p = some v) ∧
      (∀ s ∈ ((runWorkers env fs lists).2.1).flatten,
        lookupF (runWorkers env fs lists).1.files s.fpath =
          some (dlBytes env s.Object)) ∧
      ((runWorkers env fs lists).2.1).flatten.map entryKey =
        lists.flatten.map entryKey := by
  intro lists
  induction lists with
  | nil =>
    intro fs hok hwf
    exact ⟨rfl, hwf, fun p v h => h, by simp [runWorkers], by simp [runWorkers]⟩
  | cons items rest ih =>
    intro fs hok hwf
    obtain ⟨w1, w2, w3, w4, w5, w6⟩ :=
      runWorker_ok env items fs (hok items (by simp)) hwf
    obtain ⟨i1, i2, i3, i4, i5⟩ :=
      ih (runWorker env fs items).1 (fun l hl => hok l (by simp [hl])) w4
    have hrw : runWorkers env fs (items :: rest) =
        ((runWorkers env (runWorker env fs items).1 rest).1,
         (runWorker env fs items).2.1 ::
           (runWorkers env (runWorker env fs items).1 rest).2.1,
         (runWorker env fs items).2.2 ++
           (runWorkers env (runWorker env fs items).1 rest).2.2) := by
      rw [runWorkers]
    rw [hrw]
    refine ⟨by simp [w3, i1], i2, fun p v hp => i3 p v (w5 p v hp), ?_, ?_⟩
    · intro s hs
      simp only [List.flatten_cons, List.mem_append] at hs
      rcases hs with hm | hm
      · rw [w2] at hm
        exact i3 _ _ (w6 s hm)
      · exact i4 s hm
    · simp only [List.flatten_cons, List.map_append, i5, w2,
        stagedSeq_map_entryKey]

/-! ## The archive stage on fully-staged queues -/

theorem archiveLoop_ok (env : Env) (fs : FS) (cf : Resource → String) :
    ∀ queue : List Resource,
      (∀ r ∈ queue, r.fpath ≠ "" ∧ env.zipCreateOk r.FileName = true ∧
        lookupF fs.files r.fpath = some (cf r)) →
      archiveLoop env fs queue =
        (.ok (queue.map fun r => (r.FileName, cf r)),
         queue.map Resource.fpath, []) := by
  intro queue
  induction queue with
  | nil => intro _; rfl
  | cons r rest ih =>
    intro h
    obtain ⟨h1, h2, h3⟩ := h r (by simp)
    have ha : addToZip env fs r = .ok (r.FileName, cf r) := by
      rw [addToZip, if_pos h2, h3]
    rw [archiveLoop, if_neg h1, ha, ih fun q hq => h q (by simp [hq])]
    simp

/-- `archive` on a queue of properly staged resources in a well-formed
file system: it returns the zip temp file's path, writes exactly one
entry per queue item in queue order, and consumes the whole queue. -/
theorem archiveGo_ok (env : Env) (fs : FS) (cf : Resource → String)
    (hwf : WF fs) (queue : List Resource)
    (hq : ∀ r ∈ queue, env.zipCreateOk r.FileName = true ∧
      lookupF fs.files r.fpath = some (cf r)) :
    (archiveGo env fs queue).2.1 =
      .ok (tempName fs.nextId
        ((patParts "*.s3.zip").1 ++ (patParts "*.s3.zip").2)) ∧
    (archiveGo env fs queue).2.2.1 =
      queue.map (fun r => (r.FileName, cf r)) ∧
    (archiveGo env fs queue).2.2.2 = [] := by
  have hsep : sepIn ("*.s3.zip" : String).data = false := by decide
  have hq1 : ∀ r ∈ queue, r.fpath ≠ "" ∧ env.zipCreateOk r.FileName = true ∧
      lookupF ((tempName fs.nextId
          ((patParts "*.s3.zip").1 ++ (patParts "*.s3.zip").2), "") ::
        fs.files) r.fpath = some (cf r) := by
    intro r hr
    obtain ⟨hz, hl⟩ := hq r hr
    have hmem := lookupF_mem fs.files r.fpath (cf r) hl
    have hne : r.fpath ≠ tempName fs.nextId
        ((patParts "*.s3.zip").1 ++ (patParts "*.s3.zip").2) :=
      hwf.key_ne_future hmem fs.nextId le_rfl _
    refine ⟨?_, hz, ?_⟩
    · obtain ⟨j, rest0, hj, he⟩ := hwf _ hmem
      simp only at he
      rw [he]
      exact tempName_ne_empty j rest0
    · rw [lookupF_cons_ne _ _ _ _ hne]
      exact hl
  have hloop := archiveLoop_ok env
    (FS.mk ((tempName fs.nextId
        ((patParts "*.s3.zip").1 ++ (patParts "*.s3.zip").2), "") :: fs.files)
      (fs.nextId + 1)) cf queue hq1
  simp only [archiveGo, createTemp_ok fs _ hsep, hloop]
  exact ⟨trivial, trivial, trivial⟩

/-- Each consumer receives a subsequence of the generated stream. -/
theorem deliverTo_sublist (rs : List Resource) (assign : Nat → Nat) (w : Nat) :
    deliverTo rs assign w <+ gen rs := by
  have h1 : ((gen rs).enum.filter fun p => decide (assign p.1 = w)) <+
      (gen rs).enum := List.filter_sublist _
  have h2 := h1.map Prod.snd
  rw [List.enum_map_snd] at h2
  exact h2

/-- The workers' queue shares together are a permutation of the input. -/
theorem workerLists_flatten_perm (rs : List Resource) (assign : Nat → Nat)
    (c : Nat) (h : ∀ i, i < rs.length → assign i < c) :
    (workerLists rs assign c).flatten ~ rs := by
  have hperm : ((List.range c).flatMap fun w =>
      rs.enum.filter fun p => decide (assign p.1 = w)) ~ rs.enum := by
    apply partition_flatMap_perm
    intro p hp
    obtain ⟨hl, -⟩ := List.getElem?_eq_some.mp (List.mem_enum_iff_getElem?.mp hp)
    exact h p.1 hl
  have hmap := hperm.map Prod.snd
  rw [List.enum_map_snd, List.map_flatMap] at hmap
  exact hmap

/-- The success path of `Do`: with a non-empty input, every download able
to succeed, every entry write and the upload succeeding, a valid worker
assignment, and the merge fully drained, the run succeeds and uploads to
the destination an archive whose entries are, up to order, exactly one
entry per resource carrying its bytes. -/
theorem do_success_core (env : Env) (z : S3Zip) (dest : Object)
    (rs : List Resource) (assign : Nat → Nat) (sched : List Nat)
    (hpos : 0 < z.concurrency)
    (hok : ∀ r ∈ rs, DownloadOk env r)
    (hzip : ∀ r ∈ rs, env.zipCreateOk r.FileName = true)
    (hup : env.uploadOk dest = true)
    (hassign : ∀ i, i < rs.length → assign i < z.concurrency.toNat)
    (hcomp : ((mergeRun (doWorkers env z rs assign).2.1 sched).2).all
      List.isEmpty = true) :
    (z.Do env dest rs assign sched).result = DoResult.ok ∧
    uploadedDests (z.Do env dest rs assign sched) = [dest] ∧
    uploadedEntries (z.Do env dest rs assign sched) ~ rs.map (entryOf env) := by
  have hnneg : ¬ z.concurrency < 0 := by omega
  have hlists : ∀ items ∈ workerLists rs assign z.concurrency.toNat,
      ∀ r ∈ items, DownloadOk env r := by
    intro items hitems r hr
    obtain ⟨w, hw, he⟩ := List.mem_map.mp hitems
    subst he
    exact hok r ((deliverTo_sublist rs assign w).subset hr)
  obtain ⟨rw1, rw2, rw3, rw4, rw5⟩ :=
    runWorkers_ok env (workerLists rs assign z.concurrency.toNat)
      (FS.mk [] 0) hlists (fun pr hpr => absurd hpr (List.not_mem_nil pr))
  simp only [doWorkers] at hcomp
  have hmerged : (mergeRun (runWorkers env (FS.mk [] 0)
      (workerLists rs assign z.concurrency.toNat)).2.1 sched).1 ~
      ((runWorkers env (FS.mk [] 0)
        (workerLists rs assign z.concurrency.toNat)).2.1).flatten := by
    have h0 := mergeRun_invariant sched (runWorkers env (FS.mk [] 0)
      (workerLists rs assign z.concurrency.toNat)).2.1
    rw [flatten_of_all_isEmpty _ hcomp, List.append_nil] at h0
    exact h0
  have hkeymem : ∀ s ∈ (mergeRun (runWorkers env (FS.mk [] 0)
      (workerLists rs assign z.concurrency.toNat)).2.1 sched).1,
      entryKey s ∈ rs.map entryKey := by
    intro s hs
    have h1 := List.mem_map_of_mem entryKey (hmerged.subset hs)
    rw [rw5] at h1
    exact ((workerLists_flatten_perm rs assign _ hassign).map entryKey).subset h1
  have hq : ∀ s ∈ (mergeRun (runWorkers env (FS.mk [] 0)
      (workerLists rs assign z.concurrency.toNat)).2.1 sched).1,
      env.zipCreateOk s.FileName = true ∧
      lookupF (runWorkers env (FS.mk [] 0)
        (workerLists rs assign z.concurrency.toNat)).1.files s.fpath =
        some (dlBytes env s.Object) := by
    intro s hs
    constructor
    · obtain ⟨r0, hr0, he⟩ := List.mem_map.mp (hkeymem s hs)
      have hfn : r0.FileName = s.FileName := congrArg Prod.fst he
      rw [← hfn]
      exact hzip r0 hr0
    · exact rw4 s (hmerged.subset hs)
  obtain ⟨a1, a2, a3⟩ := archiveGo_ok env
    (runWorkers env (FS.mk [] 0) (workerLists rs assign z.concurrency.toNat)).1
    (fun r => dlBytes env r.Object) rw2
    (mergeRun (runWorkers env (FS.mk [] 0)
      (workerLists rs assign z.concurrency.toNat)).2.1 sched).1 hq
  have hout : z.Do env dest rs assign sched =
      { result := DoResult.ok
        files := removeF (archiveGo env
          (runWorkers env (FS.mk [] 0)
            (workerLists rs assign z.concurrency.toNat)).1
          (mergeRun (runWorkers env (FS.mk [] 0)
            (workerLists rs assign z.concurrency.toNat)).2.1 sched).1).1.files
          (tempName (runWorkers env (FS.mk [] 0)
            (workerLists rs assign z.concurrency.toNat)).1.nextId
            ((patParts "*.s3.zip").1 ++ (patParts "*.s3.zip").2))
        uploaded := [(dest,
          (mergeRun (runWorkers env (FS.mk [] 0)
            (workerLists rs assign z.concurrency.toNat)).2.1 sched).1.map
            fun r => (r.FileName, dlBytes env r.Object))]
        undelivered := (runWorkers env (FS.mk [] 0)
            (workerLists rs assign z.concurrency.toNat)).2.2 ++
          undeliveredItems rs assign z.concurrency.toNat
        unconsumed := (archiveGo env
            (runWorkers env (FS.mk [] 0)
              (workerLists rs assign z.concurrency.toNat)).1
            (mergeRun (runWorkers env (FS.mk [] 0)
              (workerLists rs assign z.concurrency.toNat)).2.1 sched).1).2.2.2 ++
          ((mergeRun (runWorkers env (FS.mk [] 0)
            (workerLists rs assign z.concurrency.toNat)).2.1 sched).2).flatten } := by
    simp only [S3Zip.Do, doWorkers, if_neg hnneg, a1, a2, if_pos hup]
  rw [hout]
  refine ⟨rfl, rfl, ?_⟩
  show ((mergeRun (runWorkers env (FS.mk [] 0)
      (workerLists rs assign z.concurrency.toNat)).2.1 sched).1.map
      (entryOf env) ++ []) ~ rs.map (entryOf env)
  rw [List.append_nil]
  have hstep1 := hmerged.map (entryOf env)
  have hcomp2 : ∀ l : List Resource,
      l.map (entryOf env) =
        (l.map entryKey).map fun q => (q.1, dlBytes env q.2) := by
    intro l
    rw [List.map_map]
    rfl
  have hstep2 : (((runWorkers env (FS.mk [] 0)
      (workerLists rs assign z.concurrency.toNat)).2.1).flatten).map (entryOf env) =
      ((workerLists rs assign z.concurrency.toNat).flatten).map (entryOf env) := by
    rw [hcomp2, hcomp2, rw5]
  have hstep3 :=
    (workerLists_flatten_perm rs assign z.concurrency.toNat hassign).map (entryOf env)
  exact hstep1.trans (hstep2 ▸ hstep3)

/-- **C4** (confirmed).  For a non-empty input with pairwise-distinct
archive paths, when every download (temp-file allocation and retrieval),
every archive-entry write, and the upload succeed — for any worker count,
any delivery of queue items to workers, and any drained merge
interleaving — `Do` succeeds and the archive uploaded to the destination
has, up to order, exactly one entry per `ResourceDescriptor`, named by its
archive path and carrying bytes identical to its source object's. -/
theorem claim_C4_success_archive (env : Env) (z : S3Zip) (dest : Object)
    (rs : List Resource) (assign : Nat → Nat) (sched : List Nat)
    (hne : rs ≠ [])
    (_hdistinct : rs.Pairwise fun a b => a.FileName ≠ b.FileName)
    (hok : ∀ r ∈ rs, DownloadOk env r)
    (hzip : ∀ r ∈ rs, env.zipCreateOk r.FileName = true)
    (hup : env.uploadOk dest = true)
    (hassign : ∀ i, i < rs.length → assign i < z.concurrency.toNat)
    (hcomp : ((mergeRun (doWorkers env z rs assign).2.1 sched).2).all
      List.isEmpty = true) :
    (z.Do env dest rs assign sched).result = DoResult.ok ∧
    uploadedDests (z.Do env dest rs assign sched) = [dest] ∧
    uploadedEntries (z.Do env dest rs assign sched) ~ rs.map (entryOf env) :=
  do_success_core env z dest rs assign sched
    (by
      cases rs with
      | nil => exact absurd rfl hne
      | cons r t =>
        have h0 := hassign 0 (by simp)
        by_contra hc
        push_neg at hc
        rw [Int.toNat_of_nonpos hc] at h0
        omega)
    hok hzip hup hassign hcomp

/-- Witness for C4: two resources, two workers, alternating assignment,
merge drained in order. -/
theorem claim_C4_witness :
    (∀ r ∈ ([rA, rB] : List Resource), DownloadOk envOk r) ∧
    ((S3Zip.Do ⟨2⟩ envOk dst [rA, rB] (fun i => i % 2) [0, 1]).result =
      DoResult.ok ∧
     uploadedDests (S3Zip.Do ⟨2⟩ envOk dst [rA, rB] (fun i => i % 2) [0, 1]) =
      [dst] ∧
     uploadedEntries (S3Zip.Do ⟨2⟩ envOk dst [rA, rB] (fun i => i % 2) [0, 1]) ~
      [rA, rB].map (entryOf envOk)) :=
  ⟨by decide,
   claim_C4_success_archive envOk ⟨2⟩ dst [rA, rB] (fun i => i % 2) [0, 1]
     (by decide) (by decide) (by decide) (by decide) (by decide) (by decide)
     (by decide)⟩

/-- **C8** (confirmed).  On the same fixed input — any resources list,
empty included, with every download able to succeed — two runs with any
two concurrency values ≥ 1 (and any valid deliveries and drained
interleavings) upload archives with the same multiset of entries — same
names, same contents; only order may differ. -/
theorem claim_C8_concurrency_independent (env : Env) (dest : Object)
    (rs : List Resource) (z1 z2 : S3Zip) (assign1 assign2 : Nat → Nat)
    (sched1 sched2 : List Nat)
    (hpos1 : 0 < z1.concurrency)
    (hpos2 : 0 < z2.concurrency)
    (hok : ∀ r ∈ rs, DownloadOk env r)
    (hzip : ∀ r ∈ rs, env.zipCreateOk r.FileName = true)
    (hup : env.uploadOk dest = true)
    (ha1 : ∀ i, i < rs.length → assign1 i < z1.concurrency.toNat)
    (ha2 : ∀ i, i < rs.length → assign2 i < z2.concurrency.toNat)
    (hc1 : ((mergeRun (doWorkers env z1 rs assign1).2.1 sched1).2).all
      List.isEmpty = true)
    (hc2 : ((mergeRun (doWorkers env z2 rs assign2).2.1 sched2).2).all
      List.isEmpty = true) :
    uploadedEntries (z1.Do env dest rs assign1 sched1) ~
      uploadedEntries (z2.Do env dest rs assign2 sched2) :=
  ((do_success_core env z1 dest rs assign1 sched1 hpos1 hok hzip hup ha1
      hc1).2.2).trans
    ((do_success_core env z2 dest rs assign2 sched2 hpos2 hok hzip hup ha2
      hc2).2.2).symm

/-- Witness for C8: the same two resources run with concurrency 1 and
concurrency 2 yield permuted-equal entry sets. -/
theorem claim_C8_witness :
    (((mergeRun (doWorkers envOk ⟨1⟩ [rA, rB] (fun _ => 0)).2.1
        [0, 0]).2).all List.isEmpty = true) ∧
    uploadedEntries (S3Zip.Do ⟨1⟩ envOk dst [rA, rB] (fun _ => 0) [0, 0]) ~
      uploadedEntries (S3Zip.Do ⟨2⟩ envOk dst [rA, rB] (fun i => i % 2) [1, 0]) :=
  ⟨by decide,
   claim_C8_concurrency_independent envOk dst [rA, rB] ⟨1⟩ ⟨2⟩
     (fun _ => 0) (fun i => i % 2) [0, 0] [1, 0]
     (by decide) (by decide) (by decide) (by decide) (by decide) (by decide)
     (by decide) (by decide) (by decide)⟩

/-! ## Staged resources always carry a transient location -/

/-- Whenever `createTemp` succeeds, the returned name is a temp name. -/
theorem createTemp_ok_name (fs : FS) (pattern : String) (fs1 : FS)
    (name : String) (h : createTemp fs pattern = .ok (fs1, name)) :
    name = tempName fs.nextId ((patParts pattern).1 ++ (patParts pattern).2) := by
  unfold createTemp at h
  split at h
  · cases h
  · cases h
    rfl

/-- Whenever `downloadOnDisk` emits a staged resource, its `fpath` is a
freshly issued temp-file name. -/
theorem downloadOnDisk_ok_fpath (env : Env) (fs : FS) (res staged : Resource)
    (fs1 : FS) (h : downloadOnDisk env fs res = (fs1, .ok staged)) :
    ∃ i rest, staged.fpath = tempName i rest := by
  unfold downloadOnDisk at h
  split at h
  · cases h
  · rename_i fsx namex heq
    split at h
    · cases h
    · cases h
      exact ⟨fs.nextId, _, createTemp_ok_name fs _ fsx namex heq⟩

/-- Every resource a worker emits carries a temp-file `fpath`. -/
theorem runWorker_out_fpath (env : Env) :
    ∀ (items : List Resource) (fs : FS) (s : Resource),
      s ∈ (runWorker env fs items).2.1 → ∃ i rest, s.fpath = tempName i rest := by
  intro items
  induction items with
  | nil =>
    intro fs s hs
    simp [runWorker] at hs
  | cons r rest ih =>
    intro fs s hs
    rw [runWorker] at hs
    cases hd : downloadOnDisk env fs r with
    | mk fs1 res1 =>
      rw [hd] at hs
      cases res1 with
      | error e => simp at hs
      | ok staged =>
        simp only at hs
        rcases List.mem_cons.mp hs with he | hm
        · subst he
          exact downloadOnDisk_ok_fpath env fs r s fs1 hd
        · exact ih fs1 s hm

/-- Unfolding of the worker pool on a non-empty pool. -/
theorem runWorkers_cons (env : Env) (fs : FS) (items : List Resource)
    (rest : List (List Resource)) :
    runWorkers env fs (items :: rest) =
      ((runWorkers env (runWorker env fs items).1 rest).1,
       (runWorker env fs items).2.1 ::
         (runWorkers env (runWorker env fs items).1 rest).2.1,
       (runWorker env fs items).2.2 ++
         (runWorkers env (runWorker env fs items).1 rest).2.2) := by
  rw [runWorkers]

/-- Every resource any worker of the pool emits carries a temp-file
`fpath`. -/
theorem runWorkers_out_fpath (env : Env) :
    ∀ (lists : List (List Resource)) (fs : FS) (s : Resource),
      s ∈ ((runWorkers env fs lists).2.1).flatten →
      ∃ i rest, s.fpath = tempName i rest := by
  intro lists
  induction lists with
  | nil =>
    intro fs s hs
    simp [runWorkers] at hs
  | cons items rest ih =>
    intro fs s hs
    rw [runWorkers_cons] at hs
    simp only [List.flatten_cons, List.mem_append] at hs
    rcases hs with hm | hm
    · exact runWorker_out_fpath env items fs s hm
    · exact ih (runWorker env fs items).1 s hm

/-- **C5** (amended, proved).  The Go `archive` loop does silently skip a
`StagedResource` whose transient location is empty
(`claim_C5_counterexample`); the amended statement is that inside `Do`
this skip branch is dead code: every resource that ever reaches the
archive stage carries a non-empty (freshly issued temp-file) transient
location, because workers emit a resource only after `downloadOnDisk`
succeeded. -/
theorem claim_C5_amended (env : Env) (z : S3Zip) (rs : List Resource)
    (assign : Nat → Nat) (sched : List Nat) (r : Resource)
    (hr : r ∈ mergedQueue env z rs assign sched) : r.fpath ≠ "" := by
  have hsub : r ∈ ((doWorkers env z rs assign).2.1).flatten := by
    have hinv := mergeRun_invariant sched (doWorkers env z rs assign).2.1
    exact hinv.subset (List.mem_append_left _ hr)
  obtain ⟨i, rest, he⟩ := runWorkers_out_fpath env _ _ r hsub
  rw [he]
  exact tempName_ne_empty i rest

/-- Witness for C5: in a concrete successful run the single staged
resource reaches the archive queue with a non-empty transient path. -/
theorem claim_C5_witness :
    (stageRes 0 rA ∈ mergedQueue envOk ⟨1⟩ [rA] (fun _ => 0) [0]) ∧
    (stageRes 0 rA).fpath ≠ "" :=
  ⟨by decide,
   claim_C5_amended envOk ⟨1⟩ [rA] (fun _ => 0) [0] (stageRes 0 rA) (by decide)⟩

/-- Merging no worker streams closes immediately with nothing. -/
theorem mergeRun_nil : ∀ sched : List Nat, mergeRun [] sched = ([], []) := by
  intro sched
  induction sched with
  | nil => rfl
  | cons i s ih =>
    rw [mergeRun]
    simp only [List.getElem?_nil]
    exact ih

/-- **C10** (amended, proved).  `New` and `WithConcurrency` accept any
integer without validation.  For concurrency 0 with any resources list,
`Do` spawns zero workers, uploads an archive with zero entries and
returns `nil` (the claim's behaviour) — but for negative concurrency the
claim fails (`claim_C10_counterexample`): `make([]<-chan Resource, c)`
panics, so `Do` neither returns `nil` nor uploads anything. -/
theorem claim_C10_amended (cv : Int) (env : Env) (z : S3Zip) (dest : Object)
    (rs : List Resource) (assign : Nat → Nat) (sched : List Nat) :
    (New [WithConcurrency cv]).concurrency = cv ∧
    (z.concurrency = 0 → env.uploadOk dest = true →
      (doWorkers env z rs assign).2.1 = [] ∧
      (z.Do env dest rs assign sched).result = DoResult.ok ∧
      (z.Do env dest rs assign sched).uploaded = [(dest, [])]) ∧
    (z.concurrency < 0 →
      (z.Do env dest rs assign sched).result =
        DoResult.fatal "makeslice: len out of range") := by
  refine ⟨rfl, ?_, ?_⟩
  · intro h0 hup
    obtain ⟨cc⟩ := z
    simp only at h0
    subst h0
    have hdw : doWorkers env ⟨0⟩ rs assign = (FS.mk [] 0, [], []) := rfl
    refine ⟨by rw [hdw], ?_⟩
    have hDo : S3Zip.Do ⟨0⟩ env dest rs assign sched =
        (if env.uploadOk dest then
          { result := DoResult.ok
            files := removeF (archiveGo env (FS.mk [] 0) []).1.files
              (tempName 0 ((patParts "*.s3.zip").1 ++ (patParts "*.s3.zip").2))
            uploaded := [(dest, [])]
            undelivered := [] ++ undeliveredItems rs assign 0
            unconsumed := [] ++ ([] : List (List Resource)).flatten }
        else
          { result := DoResult.error "failed to upload zip"
            files := removeF (archiveGo env (FS.mk [] 0) []).1.files
              (tempName 0 ((patParts "*.s3.zip").1 ++ (patParts "*.s3.zip").2))
            uploaded := []
            undelivered := [] ++ undeliveredItems rs assign 0
            unconsumed := [] ++ ([] : List (List Resource)).flatten }) := by
      rw [S3Zip.Do, if_neg (by decide), hdw]
      simp only [mergeRun_nil]
      rfl
    rw [hDo, if_pos hup]
    exact ⟨rfl, rfl⟩
  · intro hneg
    rw [S3Zip.Do, if_pos hneg]

/-- Witness for C10's amended claim: concurrency 0 uploads an empty
archive and returns `nil`; concurrency −1 panics. -/
theorem claim_C10_witness :
    ((New [WithConcurrency 7]).concurrency = 7) ∧
    ((S3Zip.Do ⟨0⟩ envOk dst [rA] (fun _ => 0) []).result = DoResult.ok ∧
     (S3Zip.Do ⟨0⟩ envOk dst [rA] (fun _ => 0) []).uploaded = [(dst, [])]) ∧
    ((S3Zip.Do ⟨-1⟩ envOk dst [rA] (fun _ => 0) []).result =
      DoResult.fatal "makeslice: len out of range") :=
  ⟨(claim_C10_amended 7 envOk ⟨0⟩ dst [rA] (fun _ => 0) []).1,
   ⟨((claim_C10_amended 7 envOk ⟨0⟩ dst [rA] (fun _ => 0) []).2.1 rfl rfl).2.1,
    ((claim_C10_amended 7 envOk ⟨0⟩ dst [rA] (fun _ => 0) []).2.1 rfl rfl).2.2⟩,
   (claim_C10_amended 7 envOk ⟨-1⟩ dst [rA] (fun _ => 0) []).2.2 (by decide)⟩
